import Mathlib

/-!
Verification development for the swift-pm release plugin (Go sources:
archive.go, registry.go, swift.go and the manifest helpers).

Strings are modelled as lists of characters (`Str`); paths use `'/'` as the
path separator, matching `filepath.Separator` on the POSIX hosts the plugin
targets.  Machine behaviour is translated from the Go source:
  * `shouldExclude` / `matchesPattern` embed `shouldExclude` of archive.go,
  * `goMatch` embeds the standard-library `path/filepath.Match` glob matcher
    that `shouldExclude` calls (errors are modelled as `Except.error ()`,
    mirroring `ErrBadPattern`),
  * the archive walk, registry response classification and manifest editing
    are embedded further below.

Recursions that are not structural in the Go loops are expressed with an
explicit fuel argument; every call site passes fuel strictly larger than the
quantity the loop consumes (one unit per pattern/chunk character), so the
fuel never runs out and the embedded functions compute exactly what the Go
loops compute, while staying kernel-reducible.
-/

/-- Strings as character lists (Go strings, restricted to their rune view). -/
abbrev Str := List Char

/-- Convenience conversion from Lean string literals. -/
def str (s : String) : Str := s.data

/-- `strings.Split(path, "/")` from the Go standard library. -/
def splitOnSep : Str → List Str
  | [] => [[]]
  | c :: s =>
    if c = '/' then [] :: splitOnSep s
    else
      match splitOnSep s with
      | [] => [[c]]
      | p :: ps => (c :: p) :: ps

/-- Strip trailing `'/'` characters (first phase of `filepath.Base`). -/
def dropTrailingSeps (p : Str) : Str :=
  (p.reverse.dropWhile (fun c => c = '/')).reverse

/-- The suffix after the last `'/'` (second phase of `filepath.Base`). -/
def lastSegment (p : Str) : Str :=
  (p.reverse.takeWhile (fun c => c != '/')).reverse

/-- `filepath.Base` from the Go standard library (no volume names on POSIX). -/
def goBase (path : Str) : Str :=
  if path.isEmpty then ['.']
  else if (dropTrailingSeps path).isEmpty then ['/']
  else lastSegment (dropTrailingSeps path)

/-! ### The `path/filepath.Match` glob matcher -/

/-- Leading-star consumption at the start of `scanChunk`: returns whether at
least one `'*'` was dropped, and the remaining pattern. -/
def dropStars : Str → Bool × Str
  | [] => (false, [])
  | c :: rest => if c = '*' then (true, (dropStars rest).2) else (false, c :: rest)

/-- The scanning loop of `scanChunk`: collect characters up to (not
including) the next `'*'` that occurs outside a bracket range; a backslash
escapes the following character. -/
def scanChunkAux : Str → Bool → Str × Str
  | [], _ => ([], [])
  | c :: rest, inrange =>
    if c = '\\' then
      match rest with
      | [] => (['\\'], [])
      | d :: rest' =>
        let (ch, r) := scanChunkAux rest' inrange
        ('\\' :: d :: ch, r)
    else if c = '[' then
      let (ch, r) := scanChunkAux rest true
      ('[' :: ch, r)
    else if c = ']' then
      let (ch, r) := scanChunkAux rest false
      (']' :: ch, r)
    else if c = '*' && !inrange then ([], c :: rest)
    else
      let (ch, r) := scanChunkAux rest inrange
      (c :: ch, r)

/-- `scanChunk` of `path/filepath`: split the pattern into a leading-star
flag, the next literal chunk, and the rest of the pattern. -/
def scanChunk (p : Str) : Bool × Str × Str :=
  let (star, p') := dropStars p
  let (chunk, rest) := scanChunkAux p' false
  (star, chunk, rest)

/-- `getEsc` of `path/filepath`: read a (possibly escaped) character of a
bracket range; `ErrBadPattern` is `.error ()`. -/
def getEsc : Str → Except Unit (Char × Str)
  | [] => .error ()
  | c :: rest =>
    if c = '-' || c = ']' then .error ()
    else if c = '\\' then
      match rest with
      | [] => .error ()
      | d :: rest' => if rest'.isEmpty then .error () else .ok (d, rest')
    else if rest.isEmpty then .error () else .ok (c, rest)

/-- The range-parsing loop inside `matchChunk`'s `'['` case: `r` is the rune
being matched (the Go zero rune when the match has already failed), `nrange`
counts parsed ranges, `acc` accumulates whether some range matched.  Returns
the accumulated match flag and the chunk remaining after `']'`.  Fuel exceeds
the chunk length at every call site, so the `.error` on fuel exhaustion is
never reached. -/
def parseClassRanges : Nat → Char → Str → Nat → Bool → Except Unit (Bool × Str)
  | 0, _, _, _, _ => .error ()
  | fuel + 1, r, chunk, nrange, acc =>
    match chunk with
    | ']' :: rest =>
      if nrange > 0 then .ok (acc, rest)
      else .error ()
    | _ =>
      match getEsc chunk with
      | .error _ => .error ()
      | .ok (lo, chunk1) =>
        match chunk1 with
        | '-' :: chunk1' =>
          match getEsc chunk1' with
          | .error _ => .error ()
          | .ok (hi, chunk2) =>
            parseClassRanges fuel r chunk2 (nrange + 1) (acc || (lo ≤ r && r ≤ hi))
        | _ =>
          parseClassRanges fuel r chunk1 (nrange + 1) (acc || (lo ≤ r && r ≤ lo))

/-- `matchChunk` of `path/filepath`: match a chunk against the head of `s`.
`.ok (some t)` is a match with remainder `t`, `.ok none` is a failed match
with syntactically valid chunk, `.error ()` is `ErrBadPattern`.  The `failed`
flag mirrors the Go local of the same name (scanning continues after a
mismatch purely to validate syntax). -/
def matchChunk : Nat → Str → Str → Bool → Except Unit (Option Str)
  | _, [], s, failed => .ok (if failed then none else some s)
  | 0, _ :: _, _, _ => .error ()
  | fuel + 1, c :: chunk1, s, failed0 =>
    let failed := failed0 || s.isEmpty
    if c = '[' then
      let r : Char := if failed then Char.ofNat 0 else s.headD (Char.ofNat 0)
      let s1 := if failed then s else s.tail
      let negch : Bool × Str :=
        match chunk1 with
        | '^' :: rest => (true, rest)
        | _ => (false, chunk1)
      match parseClassRanges (negch.2.length + 1) r negch.2 0 false with
      | .error _ => .error ()
      | .ok (m, chunk2) =>
        matchChunk fuel chunk2 s1 (failed || (m == negch.1))
    else if c = '?' then
      match s, failed with
      | _, true => matchChunk fuel chunk1 s true
      | a :: s', false => matchChunk fuel chunk1 s' (a = '/')
      | [], false => matchChunk fuel chunk1 [] true
    else if c = '\\' then
      match chunk1 with
      | [] => .error ()
      | d :: chunk2 =>
        match s, failed with
        | _, true => matchChunk fuel chunk2 s true
        | a :: s', false => matchChunk fuel chunk2 s' (d != a)
        | [], false => matchChunk fuel chunk2 [] true
    else
      match s, failed with
      | _, true => matchChunk fuel chunk1 s true
      | a :: s', false => matchChunk fuel chunk1 s' (c != a)
      | [], false => matchChunk fuel chunk1 [] true

/-- One `matchChunk` call as made by `Match`: fuel exceeds the chunk length. -/
def matchChunkF (chunk s : Str) : Except Unit (Option Str) :=
  matchChunk (chunk.length + 1) chunk s false

/-- The star-backtracking loop of `Match`: try to match `chunk` at
successively later start positions of `name`, never skipping past a `'/'`.
`.ok (some t)` resumes the outer loop with remainder `t`. -/
def starLoop (chunk rest : Str) : Str → Except Unit (Option Str)
  | [] => .ok none
  | a :: name' =>
    if a = '/' then .ok none
    else
      match matchChunkF chunk name' with
      | .error _ => .error ()
      | .ok (some t) =>
        if rest.isEmpty && !t.isEmpty then starLoop chunk rest name'
        else .ok (some t)
      | .ok none => starLoop chunk rest name'

/-- The trailing syntax-validation loop of `Match`: before returning a
non-error `false`, the rest of the pattern is checked for bad syntax
(`matchChunk` against the empty name); `false` here means `ErrBadPattern`. -/
def syntaxCheck : Nat → Str → Bool
  | _, [] => true
  | 0, _ :: _ => false
  | fuel + 1, p =>
    let sc := scanChunk p
    match matchChunkF sc.2.1 [] with
    | .error _ => false
    | .ok _ => syntaxCheck fuel sc.2.2

/-- The main loop of `path/filepath.Match`.  Fuel exceeds the pattern length
at the only call site and each iteration consumes at least one pattern
character, so the fuel-exhaustion `.error` is never reached. -/
def goMatchLoop : Nat → Str → Str → Except Unit Bool
  | _, [], name => .ok name.isEmpty
  | 0, _ :: _, _ => .error ()
  | fuel + 1, p, name =>
    let sc := scanChunk p
    let star := sc.1
    let chunk := sc.2.1
    let rest := sc.2.2
    if star && chunk.isEmpty then .ok (!(name.contains '/'))
    else
      match matchChunkF chunk name with
      | .error _ => .error ()
      | .ok r =>
        let cont : Option Str :=
          match r with
          | some t => if t.isEmpty || !rest.isEmpty then some t else none
          | none => none
        match cont with
        | some t => goMatchLoop fuel rest t
        | none =>
          if star then
            match starLoop chunk rest name with
            | .error _ => .error ()
            | .ok (some t) => goMatchLoop fuel rest t
            | .ok none => if syntaxCheck (rest.length + 1) rest then .ok false else .error ()
          else if syntaxCheck (rest.length + 1) rest then .ok false else .error ()

/-- `path/filepath.Match` (POSIX build): `.ok b` is the match result, and
`.error ()` stands for `ErrBadPattern`. -/
def goMatch (pattern name : Str) : Except Unit Bool :=
  goMatchLoop (pattern.length + 1) pattern name

/-- The `matched, _ := filepath.Match(...)` idiom of archive.go: the error is
discarded, and `Match` reports `matched = false` whenever it errors. -/
def matchBool (pattern name : Str) : Bool :=
  match goMatch pattern name with
  | .ok b => b
  | .error _ => false

/-! ### `shouldExclude` (archive.go:98-128) -/

/-- `strings.HasSuffix(pattern, "/")`. -/
def hasDirSuffix (pattern : Str) : Bool :=
  pattern.getLast? == some '/'

/-- The body of the pattern loop in `shouldExclude` (archive.go:99-126): one
pattern matches the path if the directory-prefix form, exact equality, a
glob match on any path segment, or a glob match on the basename succeeds. -/
def matchesPattern (path pattern : Str) : Bool :=
  (hasDirSuffix pattern &&
    (path == pattern.dropLast || (pattern.dropLast ++ ['/']).isPrefixOf path))
  || path == pattern
  || (splitOnSep path).any (fun part => matchBool pattern part)
  || matchBool pattern (goBase path)

/-- `shouldExclude` (archive.go:98): true iff some pattern in the list
matches; the Go loop returns on the first match, which is `List.any`. -/
def shouldExclude (path : Str) (patterns : List Str) : Bool :=
  patterns.any (matchesPattern path)

/-! ### The `CreateArchive` traversal (archive.go:27-58)

`filepath.Walk` performs a deterministic depth-first walk (children in
lexical name order).  The source tree is modelled as a rose tree of regular
files and directories; the walk below mirrors the closure passed to
`filepath.Walk`: the root (relative path `"."`) is skipped, an excluded
directory prunes its whole subtree (`filepath.SkipDir`), an excluded file is
skipped, a non-excluded directory contributes no entry, and a non-excluded
file contributes exactly one entry named by its separator-joined relative
path.  Entry paths are kept as segment lists and joined with `'/'`
(`filepath.Rel` output already uses `'/'` on POSIX, and archive.go:149
normalises to `'/'`). -/

mutual
inductive FSNode : Type where
  | file : FSNode
  | dir : FSForest → FSNode
deriving DecidableEq
inductive FSForest : Type where
  | nil : FSForest
  | cons : Str → FSNode → FSForest → FSForest
deriving DecidableEq
end

/-- Join path segments with `'/'`. -/
def joinPath : List Str → Str
  | [] => []
  | [s] => s
  | s :: rest => s ++ '/' :: joinPath rest

mutual
/-- Entries contributed by one visited node whose relative path has segments
`rel` (never `[]`: the root is handled by `archiveEntrySegs`). -/
def entriesNode (excl : List Str) (rel : List Str) : FSNode → List (List Str)
  | .file => if shouldExclude (joinPath rel) excl then [] else [rel]
  | .dir cs => if shouldExclude (joinPath rel) excl then [] else entriesForest excl rel cs
/-- Entries contributed by the children of a visited directory. -/
def entriesForest (excl : List Str) (rel : List Str) : FSForest → List (List Str)
  | .nil => []
  | .cons name n rest => entriesNode excl (rel ++ [name]) n ++ entriesForest excl rel rest
end

/-- Segment-list names of the archive entries produced by the walk in
`CreateArchive` over source tree `t` with exclusion list `excl`.  A root that
is a single file produces no entries (the root visit is skipped). -/
def archiveEntrySegs (excl : List Str) : FSNode → List (List Str)
  | .file => []
  | .dir cs => entriesForest excl [] cs

/-- The archive member names (separator-joined), as stored in the zip. -/
def archiveEntries (excl : List Str) (t : FSNode) : List Str :=
  (archiveEntrySegs excl t).map joinPath

mutual
/-- Node lookup along a segment path. -/
def lookupNode : FSNode → List Str → Option FSNode
  | n, [] => some n
  | .file, _ :: _ => none
  | .dir cs, seg :: segs =>
    match lookupForest cs seg with
    | some child => lookupNode child segs
    | none => none
/-- First child with the given name. -/
def lookupForest : FSForest → Str → Option FSNode
  | .nil, _ => none
  | .cons name n rest, seg => if name = seg then some n else lookupForest rest seg
end

/-- Names appearing in a forest. -/
def forestNames : FSForest → List Str
  | .nil => []
  | .cons name _ rest => name :: forestNames rest

/-- A legal file or directory name: nonempty, free of the path separator and
not one of the special directory entries (a real directory listing never
contains `"."` or `".."`). -/
def goodName (s : Str) : Bool :=
  !s.isEmpty && !s.contains '/' && s != str "." && s != str ".."

mutual
/-- Well-formedness of a source tree: every directory listing has pairwise
distinct legal names. -/
def wfNode : FSNode → Bool
  | .file => true
  | .dir cs => wfForest cs
def wfForest : FSForest → Bool
  | .nil => true
  | .cons name n rest =>
    goodName name && !(forestNames rest).contains name && wfNode n && wfForest rest
end

/-! ### Archive finalization (archive.go:60-94)

After the walk, `CreateArchive` closes the zip writer, seeks to the start,
streams the file through SHA-256, hex-encodes the sum and closes the file.
Each of those steps can fail; on every failure the function removes the
temporary archive and returns empty path and checksum.  The SHA-256
compression function itself is Go library code outside this repository, so
it enters the model as an opaque parameter `sha` producing the digest bytes
of the complete container; hex encoding (`encoding/hex.EncodeToString`,
lowercase alphabet) is modelled concretely. -/

/-- One lowercase hex digit (`encoding/hex` alphabet `0123456789abcdef`). -/
def nibbleChar (n : Nat) : Char :=
  if n % 16 < 10 then Char.ofNat (48 + n % 16) else Char.ofNat (87 + n % 16)

/-- `hex.EncodeToString` over a byte sequence. -/
def hexEncode (bs : List Nat) : Str :=
  bs.foldr (fun b acc => nibbleChar (b / 16) :: nibbleChar b :: acc) []

/-- Result of `CreateArchive`: the returned path and checksum strings, the
error flag (`err ≠ nil`), and whether `os.Remove` was invoked on the
temporary archive. -/
structure ArchiveResult where
  path : Str
  checksum : Str
  errored : Bool
  tempRemoved : Bool
deriving DecidableEq

/-- The finalization sequence of `CreateArchive` (archive.go:60-94) given the
complete container bytes, the SHA-256 function, and the success of each
fallible step: the traversal (archive.go:27-58), `zipWriter.Close`
(line 67), `Seek` (line 74), the digest copy (line 81) and the final file
`Close` (line 89).  Every failing branch removes the temporary file and
returns empty strings. -/
def createArchiveFinalize (archivePath : Str) (container : List Nat)
    (sha : List Nat → List Nat)
    (walkOk closeOk seekOk readOk closeFileOk : Bool) : ArchiveResult :=
  if !walkOk then ⟨[], [], true, true⟩
  else if !closeOk then ⟨[], [], true, true⟩
  else if !seekOk then ⟨[], [], true, true⟩
  else if !readOk then ⟨[], [], true, true⟩
  else if !closeFileOk then ⟨[], [], true, true⟩
  else ⟨archivePath, hexEncode (sha container), false, false⟩

/-! ### The registry client (registry.go) -/

/-- `Release` (registry.go:37-42); Go zero values are the empty string and
the nil map (modelled as the empty association list). -/
structure Release where
  version : Str
  checksum : Str
  signature : Str
  metadata : List (Str × Str)
deriving DecidableEq

/-- Status-code classification of `ListReleases` (registry.go:62-72) applied
to the received response: 404 yields the empty list, any status other than
200 yields an error carrying status and body text, and 200 yields the empty
list (the body is not parsed: "Parse response - simplified for now"). -/
def listReleasesResult (status : Nat) (body : Str) : Except (Nat × Str) (List Release) :=
  if status = 404 then .ok []
  else if status ≠ 200 then .error (status, body)
  else .ok []

/-- Status-code classification of `GetRelease` (registry.go:93-102): 404
yields `none` (absent, no error), any status other than 200 yields an error
carrying status and body, and 200 yields a release whose only populated
field is the requested version (registry.go:102). -/
def getReleaseResult (version : Str) (status : Nat) (body : Str) :
    Except (Nat × Str) (Option Release) :=
  if status = 404 then .ok none
  else if status ≠ 200 then .error (status, body)
  else .ok (some { version := version, checksum := [], signature := [], metadata := [] })

/-- An HTTP request as assembled by the client (method, URL, ordered header
writes, declared content length, body bytes). -/
structure HttpRequest where
  method : Str
  url : Str
  headers : List (Str × Str)
  contentLength : Nat
  body : List Nat
deriving DecidableEq

/-- The PUT request built by `Publish` (registry.go:106-130): the body is
the opened archive file streamed as-is, `ContentLength` is `stat.Size()` of
that file (its byte length), and the headers are set in source order,
including `Digest: sha-256=<checksum>`. -/
def publishRequest (baseURL token scope name version : Str)
    (archiveBytes : List Nat) (checksum : Str) : HttpRequest :=
  { method := str "PUT"
    url := baseURL ++ '/' :: scope ++ '/' :: name ++ '/' :: version
    headers :=
      [ (str "Authorization", str "Bearer " ++ token)
      , (str "Content-Type", str "application/zip")
      , (str "Accept", str "application/vnd.swift.registry.v1+json")
      , (str "Digest", str "sha-256=" ++ checksum) ]
    contentLength := archiveBytes.length
    body := archiveBytes }

/-- Status-code classification of `Publish` (registry.go:138-143): any
status other than 201 (Created) and 200 (OK) is an error carrying status and
body text; 200 and 201 yield success. -/
def publishResult (status : Nat) (body : Str) : Except (Nat × Str) Unit :=
  if status ≠ 201 && status ≠ 200 then .error (status, body)
  else .ok ()

/-! ### Manifest editing (UpdateVersionConstant, ExtractSwiftToolsVersion)

Both operations are anchored regex rewrites over the raw file bytes.  The
patterns are fixed shapes, so they are embedded as direct scanners:

`UpdateVersionConstant` uses
`(let\s+NAME\s*(?::\s*String\s*)?=\s*")([^"]+)(")` with `NAME` the
meta-quoted constant name, and `ReplaceAll` with template `${1}VERSION${3}`,
i.e. every non-overlapping leftmost match keeps everything except the quoted
value.  For this pattern the Go (leftmost, greedy) match is computed by
maximal munch: `\s+`/`\s*` consume maximal whitespace runs (the next literal
is never a whitespace character), the optional annotation group is entered
exactly when `':'` follows (the alternative continuation `'='` differs), and
`[^"]+` consumes the maximal quote-free run.

`ExtractSwiftToolsVersion` uses
`//\s*swift-tools-version:\s*(\d+\.\d+(?:\.\d+)?)` and `FindSubmatch`, i.e.
the leftmost match anywhere in the content, returning the version group. -/

/-- Go `\s` on ASCII text: space, tab, newline, form feed, carriage return,
vertical tab. -/
def isGoSpace (c : Char) : Bool :=
  c = ' ' || c = '\t' || c = '\n' || c = '\x0b' || c = '\x0c' || c = '\r'

/-- Split a maximal run satisfying `p` from the front: (run, rest). -/
def spanP (p : Char → Bool) : Str → Str × Str
  | [] => ([], [])
  | c :: s =>
    if p c then
      let (run, rest) := spanP p s
      (c :: run, rest)
    else ([], c :: s)

/-- Consume an exact literal from the front. -/
def stripLit : Str → Str → Option Str
  | [], s => some s
  | _ :: _, [] => none
  | a :: lit, b :: s => if a = b then stripLit lit s else none

/-- Tail of a version-declaration match after the optional type annotation:
expects `=` `\s*` `"` value `"`, returning (consumed-through-opening-quote,
value, rest-after-closing-quote). -/
def matchVersionDeclTail (s : Str) : Option (Str × Str × Str) :=
  match s with
  | '=' :: s1 =>
    let (w, s2) := spanP isGoSpace s1
    match s2 with
    | '"' :: s3 =>
      let (v, s4) := spanP (fun c => c != '"') s3
      if v.isEmpty then none
      else
        match s4 with
        | '"' :: rest => some ('=' :: w ++ ['"'], v, rest)
        | _ => none
    | _ => none
  | _ => none

/-- Match the version-declaration pattern at the start of `s` for constant
`name`: returns (group 1 = everything through the opening quote, group 2 =
the quoted value, rest after the closing quote). -/
def matchVersionDeclAt (name : Str) (s : Str) : Option (Str × Str × Str) :=
  match stripLit (str "let") s with
  | none => none
  | some s1 =>
    let (w1, s2) := spanP isGoSpace s1
    if w1.isEmpty then none
    else
      match stripLit name s2 with
      | none => none
      | some s3 =>
        let (w2, s4) := spanP isGoSpace s3
        match s4 with
        | ':' :: s5 =>
          let (w3, s6) := spanP isGoSpace s5
          match stripLit (str "String") s6 with
          | none => none
          | some s7 =>
            let (w4, s8) := spanP isGoSpace s7
            match matchVersionDeclTail s8 with
            | none => none
            | some (g, v, rest) =>
              some (str "let" ++ w1 ++ name ++ w2 ++ ':' :: w3 ++ str "String" ++ w4 ++ g, v, rest)
        | _ =>
          match matchVersionDeclTail s4 with
          | none => none
          | some (g, v, rest) => some (str "let" ++ w1 ++ name ++ w2 ++ g, v, rest)

/-- `pattern.Match(content)` (part_000:83): does the declaration pattern
match anywhere? -/
def hasVersionDecl (name : Str) : Str → Bool
  | [] => false
  | c :: s => (matchVersionDeclAt name (c :: s)).isSome || hasVersionDecl name s

/-- `pattern.ReplaceAll(content, "${1}VERSION${3}")` (part_000:87): rewrite
every non-overlapping leftmost match, replacing only the quoted value.  Fuel
exceeds the content length; each step consumes at least one character. -/
def replaceVersionDecls (name version : Str) : Nat → Str → Str
  | _, [] => []
  | 0, s => s
  | fuel + 1, c :: s =>
    match matchVersionDeclAt name (c :: s) with
    | some (g1, _, rest) => g1 ++ version ++ '"' :: replaceVersionDecls name version fuel rest
    | none => c :: replaceVersionDecls name version fuel s

/-- `UpdateVersionConstant` (part_000:72-94) on in-memory content: if the
pattern does not match, fail with the not-found error and perform no write;
otherwise write back the content with every matched quoted value replaced.
`.ok` carries the bytes written to the file. -/
def updateVersionConstant (name version content : Str) : Except Unit Str :=
  if hasVersionDecl name content then
    .ok (replaceVersionDecls name version (content.length + 1) content)
  else .error ()

/-- Match the tools-version pattern at the start of `s`: `//`, `\s*`,
`swift-tools-version:`, `\s*`, then `major.minor[.patch]`; returns the
version group. -/
def matchToolsVersionAt (s : Str) : Option Str :=
  match stripLit (str "//") s with
  | none => none
  | some s1 =>
    let (_, s2) := spanP isGoSpace s1
    match stripLit (str "swift-tools-version:") s2 with
    | none => none
    | some s3 =>
      let (_, s4) := spanP isGoSpace s3
      let (d1, s5) := spanP Char.isDigit s4
      if d1.isEmpty then none
      else
        match s5 with
        | '.' :: s6 =>
          let (d2, s7) := spanP Char.isDigit s6
          if d2.isEmpty then none
          else
            match s7 with
            | '.' :: s8 =>
              let (d3, _) := spanP Char.isDigit s8
              if d3.isEmpty then some (d1 ++ '.' :: d2)
              else some (d1 ++ '.' :: d2 ++ '.' :: d3)
            | _ => some (d1 ++ '.' :: d2)
        | _ => none

/-- `FindSubmatch`: the leftmost match of the tools-version pattern. -/
def findToolsVersion : Str → Option Str
  | [] => none
  | c :: s =>
    match matchToolsVersionAt (c :: s) with
    | some v => some v
    | none => findToolsVersion s

/-- `ExtractSwiftToolsVersion` (part_000:97-111) on in-memory content. -/
def extractSwiftToolsVersion (content : Str) : Except Unit Str :=
  match findToolsVersion content with
  | some v => .ok v
  | none => .error ()

/-- A small concrete source tree used to witness the traversal invariants. -/
def sampleForest : FSForest :=
  .cons (str "Package.swift") .file
    (.cons (str "Sources")
      (.dir (.cons (str "main.swift") .file .nil))
      (.cons (str "Tests") (.dir (.cons (str "t.swift") .file .nil)) .nil))

/-! ### Supporting lemmas -/

/-- `hexEncode` equation on a leading byte. -/
theorem hexEncode_cons (b : Nat) (bs : List Nat) :
    hexEncode (b :: bs) = nibbleChar (b / 16) :: nibbleChar b :: hexEncode bs := rfl

/-- Every nibble character is a lowercase hexadecimal digit. -/
theorem nibbleChar_mem_hexDigits (n : Nat) : nibbleChar n ∈ str "0123456789abcdef" := by
  have h : n % 16 < 16 := Nat.mod_lt _ (by decide)
  unfold nibbleChar
  generalize hm : n % 16 = m at h ⊢
  interval_cases m <;> decide

/-- Every character of a hex encoding is a lowercase hexadecimal digit. -/
theorem hexEncode_lowercase (bs : List Nat) :
    ∀ c ∈ hexEncode bs, c ∈ str "0123456789abcdef" := by
  induction bs with
  | nil => intro c hc; cases hc
  | cons b bs ih =>
    intro c hc
    rw [hexEncode_cons] at hc
    rcases hc with _ | ⟨_, hc⟩
    · exact nibbleChar_mem_hexDigits _
    · rcases hc with _ | ⟨_, hc⟩
      · exact nibbleChar_mem_hexDigits _
      · exact ih c hc

/-! ### Claims C5, C6, C7: the registry client -/

/-- C5: `Publish` succeeds exactly on a 200 or 201 response status and
otherwise returns an error carrying the status code and the response body
text; the PUT request carries a `Digest` header of the form
`sha-256=<hex digest>` and a content length equal to the archive file's
actual byte size. -/
theorem publish_status_and_request (status : Nat) (body : Str)
    (baseURL token scope name version checksum : Str) (archiveBytes : List Nat) :
    (publishResult status body = .ok () ↔ (status = 200 ∨ status = 201)) ∧
    (status ≠ 200 → status ≠ 201 → publishResult status body = .error (status, body)) ∧
    ((publishRequest baseURL token scope name version archiveBytes checksum).headers.lookup
        (str "Digest") = some (str "sha-256=" ++ checksum)) ∧
    ((publishRequest baseURL token scope name version archiveBytes checksum).contentLength =
        archiveBytes.length) ∧
    ((publishRequest baseURL token scope name version archiveBytes checksum).method = str "PUT") := by
  refine ⟨?_, ?_, ?_, rfl, rfl⟩
  · unfold publishResult
    by_cases h1 : status = 201 <;> by_cases h2 : status = 200 <;> simp [h1, h2]
  · intro h2 h1
    unfold publishResult
    simp [h1, h2]
  · rfl

/-- Witness for `publish_status_and_request` at a concrete non-2xx status. -/
theorem publish_status_witness :
    publishResult 500 (str "boom") = .error (500, str "boom") :=
  (publish_status_and_request 500 (str "boom") [] [] [] [] [] [] []).2.1
    (by decide) (by decide)

/-- C6 counterexample: a 201 response is a 2xx status, yet `GetRelease`
returns an error for it (the code only special-cases 404 and accepts only
exactly 200), refuting "2xx responses are not errors". -/
theorem getRelease_201_is_error :
    getReleaseResult (str "1.0.0") 201 [] = .error (201, []) := rfl

/-- C6 (amended): `GetRelease` returns absent (no release, no error) on 404
and an error on 500; every status other than 200 and 404 — including 2xx
statuses other than 200, such as 201 — is an error, and a 200 response is
not an error; `ListReleases` returns an empty sequence (not an error) on
404. -/
theorem getRelease_status_classification (v body : Str) :
    (getReleaseResult v 404 body = .ok none) ∧
    (getReleaseResult v 500 body = .error (500, body)) ∧
    (∀ status, status ≠ 404 → status ≠ 200 →
      getReleaseResult v status body = .error (status, body)) ∧
    (getReleaseResult v 200 body =
      .ok (some { version := v, checksum := [], signature := [], metadata := [] })) ∧
    (listReleasesResult 404 body = .ok []) := by
  refine ⟨rfl, rfl, ?_, rfl, rfl⟩
  intro status h404 h200
  unfold getReleaseResult
  simp [h404, h200]

/-- Witness for `getRelease_status_classification` at a concrete status. -/
theorem getRelease_status_witness :
    getReleaseResult (str "2.1.0") 503 (str "unavailable") = .error (503, str "unavailable") :=
  (getRelease_status_classification (str "2.1.0") (str "unavailable")).2.2.1
    503 (by decide) (by decide)

/-- C7: on a 200 response, `ListReleases` returns the empty sequence
regardless of the response body, and `GetRelease` returns a release whose
version is the requested version and whose checksum, signature and metadata
are empty — neither operation parses the response body. -/
theorem success_responses_ignore_body (v body : Str) :
    listReleasesResult 200 body = .ok [] ∧
    getReleaseResult v 200 body =
      .ok (some { version := v, checksum := [], signature := [], metadata := [] }) :=
  ⟨rfl, rfl⟩

/-! ### Claim C4: archive finalization -/

/-- C4: whenever `CreateArchive` fails during traversal, writer close, seek,
digest streaming or final close, it returns empty path and checksum and
removes the temporary archive; it errors exactly when one of those steps
fails; and on success the checksum is the hex encoding of the SHA-256 of
the complete container bytes, every character of which is a lowercase
hexadecimal digit. -/
theorem createArchive_cleanup_and_digest (archivePath : Str) (container : List Nat)
    (sha : List Nat → List Nat) (walkOk closeOk seekOk readOk closeFileOk : Bool) :
    ((createArchiveFinalize archivePath container sha walkOk closeOk seekOk readOk closeFileOk).errored = true →
      createArchiveFinalize archivePath container sha walkOk closeOk seekOk readOk closeFileOk =
        ⟨[], [], true, true⟩) ∧
    ((createArchiveFinalize archivePath container sha walkOk closeOk seekOk readOk closeFileOk).errored =
        !(walkOk && closeOk && seekOk && readOk && closeFileOk)) ∧
    ((createArchiveFinalize archivePath container sha walkOk closeOk seekOk readOk closeFileOk).errored = false →
      createArchiveFinalize archivePath container sha walkOk closeOk seekOk readOk closeFileOk =
        ⟨archivePath, hexEncode (sha container), false, false⟩) ∧
    (∀ c ∈ hexEncode (sha container), c ∈ str "0123456789abcdef") := by
  refine ⟨?_, ?_, ?_, hexEncode_lowercase _⟩ <;>
    cases walkOk <;> cases closeOk <;> cases seekOk <;> cases readOk <;> cases closeFileOk <;>
      simp [createArchiveFinalize]

/-- Witness for `createArchive_cleanup_and_digest`: a failing digest step
removes the temporary file and returns empty results. -/
theorem createArchive_cleanup_witness :
    createArchiveFinalize (str "/tmp/a.zip") [1, 2, 3] (fun _ => [0]) true true true false true =
      ⟨[], [], true, true⟩ :=
  (createArchive_cleanup_and_digest (str "/tmp/a.zip") [1, 2, 3] (fun _ => [0])
    true true true false true).1 rfl

/-! ### Claim C10: malformed glob patterns never fail `shouldExclude` -/

/-- `filepath.Match` with the malformed pattern `"["` returns
`ErrBadPattern` on every name. -/
theorem goMatch_malformed_error (s : Str) : goMatch (str "[") s = .error () := by
  cases s <;> rfl

/-- The discarded-error view of the malformed pattern: never a match. -/
theorem matchBool_malformed (s : Str) : matchBool (str "[") s = false := by
  unfold matchBool
  rw [goMatch_malformed_error]

/-- C10: `shouldExclude` is a total boolean function by construction; a
malformed glob pattern (here `"["`, whose bracket range is unterminated so
`filepath.Match` returns `ErrBadPattern` on every input) is treated as
non-matching in the segment-glob and basename-glob steps (the error is
discarded, never propagated), it can still match by exact equality, and the
evaluation of the remaining patterns continues normally. -/
theorem shouldExclude_total_malformed :
    (∀ s : Str, goMatch (str "[") s = .error ()) ∧
    (∀ (path : Str) (rest : List Str),
      shouldExclude path (str "[" :: rest) =
        ((path == str "[") || shouldExclude path rest)) := by
  refine ⟨goMatch_malformed_error, ?_⟩
  intro path rest
  have hmb : ∀ s, matchBool (str "[") s = false := matchBool_malformed
  have hany : (splitOnSep path).any (fun part => matchBool (str "[") part) = false := by
    simp [hmb]
  have hm : matchesPattern path (str "[") = (path == str "[") := by
    unfold matchesPattern
    rw [hany, hmb (goBase path)]
    have hd : hasDirSuffix (str "[") = false := rfl
    rw [hd]
    simp
  unfold shouldExclude
  rw [List.any_cons, hm]

/-! ### Claim C1: the bare segment-glob pattern `"Tests"` -/

/-- C1: in any pattern list containing the bare pattern `"Tests"`,
`shouldExclude` returns true for `"Tests"`, `"Tests/Foo.swift"` and
`"src/Tests/Foo.swift"`; and the pattern `"Tests"` by itself does not make
`shouldExclude` return true for `"Sources/Tests.swift"` (the glob is matched
against each path segment, and `"Tests"` does not match the segment
`"Tests.swift"`). -/
theorem segment_glob_Tests (ps : List Str) (h : str "Tests" ∈ ps) :
    shouldExclude (str "Tests") ps = true ∧
    shouldExclude (str "Tests/Foo.swift") ps = true ∧
    shouldExclude (str "src/Tests/Foo.swift") ps = true ∧
    shouldExclude (str "Sources/Tests.swift") [str "Tests"] = false := by
  refine ⟨?_, ?_, ?_, by decide⟩ <;>
    exact List.any_eq_true.mpr ⟨str "Tests", h, by decide⟩

/-- Witness for `segment_glob_Tests` with a two-pattern list. -/
theorem segment_glob_Tests_witness :
    shouldExclude (str "Tests") [str ".git", str "Tests"] = true ∧
    shouldExclude (str "Tests/Foo.swift") [str ".git", str "Tests"] = true ∧
    shouldExclude (str "src/Tests/Foo.swift") [str ".git", str "Tests"] = true ∧
    shouldExclude (str "Sources/Tests.swift") [str "Tests"] = false :=
  segment_glob_Tests [str ".git", str "Tests"] (by decide)

/-! ### Claim C2: the directory-prefix pattern `"X/"` -/

/-- `strings.Split` never returns an empty list. -/
theorem splitOnSep_ne_nil (s : Str) : splitOnSep s ≠ [] := by
  cases s with
  | nil => simp [splitOnSep]
  | cons c s =>
    by_cases hc : c = '/'
    · simp [splitOnSep, hc]
    · simp only [splitOnSep, if_neg hc]
      split <;> simp

/-- No piece returned by `strings.Split(path, "/")` contains the separator. -/
theorem splitOnSep_no_sep (s : Str) : ∀ part ∈ splitOnSep s, ('/' : Char) ∉ part := by
  induction s with
  | nil =>
    intro part hp
    simp [splitOnSep] at hp
    subst hp
    simp
  | cons c s ih =>
    intro part hp
    by_cases hc : c = '/'
    · subst hc
      rw [show splitOnSep ('/' :: s) = [] :: splitOnSep s from rfl] at hp
      rcases List.mem_cons.mp hp with hpe | hp2
      · subst hpe; simp
      · exact ih part hp2
    · simp only [splitOnSep, if_neg hc] at hp
      cases hsp : splitOnSep s with
      | nil => exact absurd hsp (splitOnSep_ne_nil s)
      | cons p ps =>
        rw [hsp] at hp
        rcases List.mem_cons.mp hp with rfl | hp2
        · intro hmem
          rcases List.mem_cons.mp hmem with h1 | h2
          · exact hc h1.symm
          · exact ih p (hsp ▸ List.mem_cons_self p ps) h2
        · exact ih part (hsp ▸ List.mem_cons_of_mem p hp2)

/-- `filepath.Base` returns either the separator itself (for all-separator
paths) or a string free of separators. -/
theorem goBase_no_sep (p : Str) : goBase p = ['/'] ∨ ('/' : Char) ∉ goBase p := by
  unfold goBase
  by_cases h0 : p.isEmpty
  · rw [if_pos h0]
    right
    decide
  · rw [if_neg h0]
    by_cases h1 : (dropTrailingSeps p).isEmpty
    · rw [if_pos h1]
      exact Or.inl rfl
    · rw [if_neg h1]
      right
      unfold lastSegment
      intro hmem
      rw [List.mem_reverse] at hmem
      have hpred := List.mem_takeWhile_imp hmem
      simp at hpred

/-- The chunk `['X', '/']` fails to match any name free of separators: the
literal `'/'` in the chunk can only be consumed by a `'/'` in the name. -/
theorem matchChunkF_Xslash_no_sep (s : Str) (h : ('/' : Char) ∉ s) :
    matchChunkF ['X', '/'] s = .ok none := by
  match s with
  | [] => rfl
  | [a] =>
    by_cases ha : a = 'X'
    · subst ha; rfl
    · have step : matchChunkF ['X', '/'] [a] = matchChunk 2 ['/'] [] (('X' : Char) != a) := rfl
      rw [step, show (('X' : Char) != a) = true from bne_iff_ne.mpr (fun h' => ha h'.symm)]
      rfl
  | a :: b :: t =>
    have hb : b ≠ '/' := fun hb => h (by simp [hb])
    by_cases ha : a = 'X'
    · subst ha
      have step : matchChunkF ['X', '/'] ('X' :: b :: t) =
          matchChunk 1 [] t (('/' : Char) != b) := rfl
      rw [step, show (('/' : Char) != b) = true from bne_iff_ne.mpr (fun h' => hb h'.symm)]
      rfl
    · have step : matchChunkF ['X', '/'] (a :: b :: t) =
          matchChunk 2 ['/'] (b :: t) (('X' : Char) != a) := rfl
      rw [step, show (('X' : Char) != a) = true from bne_iff_ne.mpr (fun h' => ha h'.symm)]
      rfl

/-- When the first chunk of `"X/"` fails to match, the whole match is
`false` (the pattern has no star and nothing follows the chunk). -/
theorem matchBool_Xslash_of_none (s : Str) (hmc : matchChunkF ['X', '/'] s = .ok none) :
    matchBool (str "X/") s = false := by
  show matchBool ['X', '/'] s = false
  unfold matchBool goMatch goMatchLoop
  simp [scanChunk, dropStars, scanChunkAux, hmc, syntaxCheck]

/-- The pattern `"X/"` never glob-matches a name free of separators. -/
theorem matchBool_Xslash_no_sep (s : Str) (h : ('/' : Char) ∉ s) :
    matchBool (str "X/") s = false :=
  matchBool_Xslash_of_none s (matchChunkF_Xslash_no_sep s h)

/-- C2: the directory-prefix pattern `"X/"` makes `shouldExclude` return
true exactly for the path `"X"` itself and for paths that begin with
`"X/"`; in particular it does not exclude `"Xylophone"`. -/
theorem dir_pattern_X (p : Str) :
    (shouldExclude p [str "X/"] = true ↔ (p = str "X" ∨ str "X/" <+: p)) ∧
    shouldExclude (str "Xylophone") [str "X/"] = false := by
  refine ⟨?_, by decide⟩
  have hseg : (splitOnSep p).any (fun part => matchBool (str "X/") part) = false := by
    rw [List.any_eq_false]
    intro part hpart
    simp [matchBool_Xslash_no_sep part (splitOnSep_no_sep p part hpart)]
  have hbase : matchBool (str "X/") (goBase p) = false := by
    rcases goBase_no_sep p with hb | hb
    · rw [hb]; decide
    · exact matchBool_Xslash_no_sep _ hb
  have hB : List.dropLast (str "X/") ++ ['/'] = str "X/" := rfl
  have hd : hasDirSuffix (str "X/") = true := rfl
  unfold shouldExclude matchesPattern
  simp only [List.any_cons, List.any_nil, hseg, hbase, hB, hd, Bool.true_and, Bool.or_false]
  simp only [Bool.or_eq_true, beq_iff_eq, List.isPrefixOf_iff_prefix]
  constructor
  · rintro ((h | h) | h)
    · exact Or.inl h
    · exact Or.inr h
    · subst h; exact Or.inr (List.prefix_refl _)
  · rintro (h | h)
    · exact Or.inl (Or.inl h)
    · exact Or.inl (Or.inr h)

/-! ### Claim C8: `UpdateVersionConstant` -/

/-- C8: on content containing `let packageVersion = "1.0.0"`, updating
constant `packageVersion` to `2.0.0` yields content with
`let packageVersion = "2.0.0"` that is byte-identical elsewhere; the
optional type annotation form is likewise preserved byte-for-byte; and on
content where the declaration pattern does not match, the operation fails
with the not-found error and no write occurs (the `.error` result carries no
written content — `os.WriteFile` is only reached after a match,
part_000:83-89). -/
theorem updateVersionConstant_behaviour :
    (updateVersionConstant (str "packageVersion") (str "2.0.0")
        (str "// swift-tools-version:5.7\nlet packageVersion = \"1.0.0\"\n\nimport PackageDescription\nlet package = Package(name: \"Test\")") =
      .ok (str "// swift-tools-version:5.7\nlet packageVersion = \"2.0.0\"\n\nimport PackageDescription\nlet package = Package(name: \"Test\")")) ∧
    (updateVersionConstant (str "version") (str "3.0.0")
        (str "// swift-tools-version:5.7\nlet version: String = \"1.0.0\"\n\nimport PackageDescription") =
      .ok (str "// swift-tools-version:5.7\nlet version: String = \"3.0.0\"\n\nimport PackageDescription")) ∧
    (∀ content, hasVersionDecl (str "packageVersion") content = false →
      updateVersionConstant (str "packageVersion") (str "2.0.0") content = .error ()) := by
  refine ⟨rfl, rfl, ?_⟩
  intro content h
  unfold updateVersionConstant
  rw [h]
  rfl

/-- Witness for `updateVersionConstant_behaviour`: a concrete content with
no matching declaration fails with the not-found error. -/
theorem updateVersionConstant_notfound_witness :
    updateVersionConstant (str "packageVersion") (str "2.0.0")
      (str "// swift-tools-version:5.7\nimport PackageDescription\nlet package = Package(name: \"Test\")") =
    .error () :=
  updateVersionConstant_behaviour.2.2
    (str "// swift-tools-version:5.7\nimport PackageDescription\nlet package = Package(name: \"Test\")")
    (by decide)

/-! ### Claim C9: `ExtractSwiftToolsVersion` -/

/-- C9 counterexample: the regex is not anchored to the start of the file
(`FindSubmatch` scans the whole content), so a content whose leading line is
not a directive — the directive appears only on the second line — still
succeeds, whereas the claim says extraction fails whenever no leading
directive is present. -/
theorem extractToolsVersion_nonleading :
    extractSwiftToolsVersion (str "import PackageDescription\n// swift-tools-version:9.9") =
      .ok (str "9.9") := rfl

/-- C9 (amended): on content with a leading `// swift-tools-version:5.7`
line the extraction returns `"5.7"`, on the space variant
`// swift-tools-version: 5.9` it returns `"5.9"` (and the patch form
`5.7.1` is returned whole); it fails with the not-found error exactly when
the directive pattern matches nowhere in the content — the directive need
not be leading. -/
theorem extractToolsVersion_behaviour :
    (extractSwiftToolsVersion (str "// swift-tools-version:5.7\nimport PackageDescription") =
      .ok (str "5.7")) ∧
    (extractSwiftToolsVersion (str "// swift-tools-version: 5.9\nimport PackageDescription") =
      .ok (str "5.9")) ∧
    (extractSwiftToolsVersion (str "// swift-tools-version:5.7.1\nimport PackageDescription") =
      .ok (str "5.7.1")) ∧
    (∀ content, findToolsVersion content = none →
      extractSwiftToolsVersion content = .error ()) := by
  refine ⟨rfl, rfl, rfl, ?_⟩
  intro content h
  unfold extractSwiftToolsVersion
  rw [h]

/-- Witness for `extractToolsVersion_behaviour`: a concrete content without
the directive fails with the not-found error. -/
theorem extractToolsVersion_notfound_witness :
    extractSwiftToolsVersion (str "import PackageDescription\nlet package = Package(name: \"Test\")") =
      .error () :=
  extractToolsVersion_behaviour.2.2.2
    (str "import PackageDescription\nlet package = Package(name: \"Test\")") rfl

/-! ### Claim C3: archive traversal invariants -/

/-- A successful forest lookup returns a listed name. -/
theorem lookupForest_mem_names (cs : FSForest) (seg : Str) (n : FSNode)
    (h : lookupForest cs seg = some n) : seg ∈ forestNames cs := by
  match cs with
  | .nil => simp [lookupForest] at h
  | .cons name n' rest =>
    simp only [lookupForest] at h
    by_cases hn : name = seg
    · subst hn
      simp [forestNames]
    · rw [if_neg hn] at h
      exact List.mem_cons_of_mem _ (lookupForest_mem_names rest seg n h)

mutual
/-- Looking up a node in a well-formed tree crosses only legal names and
lands on a well-formed node. -/
theorem lookupNode_good (n : FSNode) (d : List Str) (m : FSNode) (hwf : wfNode n = true)
    (h : lookupNode n d = some m) :
    (∀ s ∈ d, goodName s = true) ∧ wfNode m = true := by
  match n, d with
  | n, [] =>
    simp only [lookupNode, Option.some.injEq] at h
    subst h
    exact ⟨fun s hs => absurd hs (List.not_mem_nil s), hwf⟩
  | .file, seg :: segs => simp [lookupNode] at h
  | .dir cs, seg :: segs =>
    rw [show lookupNode (.dir cs) (seg :: segs) =
          (match lookupForest cs seg with
           | some child => lookupNode child segs
           | none => none) from rfl] at h
    cases hlf : lookupForest cs seg with
    | none => rw [hlf] at h; simp at h
    | some child =>
      rw [hlf] at h
      have hcs : wfForest cs = true := hwf
      have hg := lookupForest_good cs seg child hcs hlf
      have hrec := lookupNode_good child segs m hg.2 h
      refine ⟨?_, hrec.2⟩
      intro s hs
      rcases List.mem_cons.mp hs with hs1 | hs2
      · subst hs1; exact hg.1
      · exact hrec.1 s hs2
/-- A successful lookup in a well-formed forest crosses a legal name. -/
theorem lookupForest_good (cs : FSForest) (seg : Str) (m : FSNode) (hwf : wfForest cs = true)
    (h : lookupForest cs seg = some m) : goodName seg = true ∧ wfNode m = true := by
  match cs with
  | .nil => simp [lookupForest] at h
  | .cons name n rest =>
    simp only [wfForest, Bool.and_eq_true] at hwf
    obtain ⟨⟨⟨hg, _⟩, hn⟩, hrest⟩ := hwf
    simp only [lookupForest] at h
    by_cases heq : name = seg
    · subst heq
      rw [if_pos rfl] at h
      cases h
      exact ⟨hg, hn⟩
    · rw [if_neg heq] at h
      exact lookupForest_good rest seg m hrest h
end

mutual
/-- Shape of entries produced under a visited node: each entry extends the
node's relative path by a lookup path that lands on a regular file, crossing
only legal names. -/
theorem entriesNode_shape (excl : List Str) (rel : List Str) (n : FSNode)
    (hwf : wfNode n = true) :
    ∀ e ∈ entriesNode excl rel n,
      ∃ suf, e = rel ++ suf ∧ lookupNode n suf = some .file ∧
        ∀ s ∈ suf, goodName s = true := by
  intro e he
  match n with
  | .file =>
    simp only [entriesNode] at he
    split at he
    · cases he
    · rcases List.mem_singleton.mp he with rfl
      exact ⟨[], by simp, rfl, by intro s hs; cases hs⟩
  | .dir cs =>
    simp only [entriesNode] at he
    split at he
    · cases he
    · have hcs : wfForest cs = true := hwf
      obtain ⟨name, n', suf, hshape, hlf, hlk, hgood, hsufg⟩ :=
        entriesForest_shape excl rel cs hcs e he
      refine ⟨name :: suf, hshape, ?_, ?_⟩
      · rw [show lookupNode (.dir cs) (name :: suf) =
              (match lookupForest cs name with
               | some child => lookupNode child suf
               | none => none) from rfl, hlf]
        exact hlk
      · intro s hs
        rcases List.mem_cons.mp hs with hs1 | hs2
        · subst hs1; exact hgood
        · exact hsufg s hs2
/-- Shape of entries produced under a visited forest. -/
theorem entriesForest_shape (excl : List Str) (rel : List Str) (cs : FSForest)
    (hwf : wfForest cs = true) :
    ∀ e ∈ entriesForest excl rel cs,
      ∃ name n suf, e = rel ++ name :: suf ∧ lookupForest cs name = some n ∧
        lookupNode n suf = some .file ∧ goodName name = true ∧
        ∀ s ∈ suf, goodName s = true := by
  intro e he
  match cs with
  | .nil => cases he
  | .cons name n rest =>
    simp only [wfForest, Bool.and_eq_true] at hwf
    obtain ⟨⟨⟨hg, hnotin⟩, hwn⟩, hrest⟩ := hwf
    simp only [entriesForest] at he
    rcases List.mem_append.mp he with hL | hR
    · obtain ⟨suf, hshape, hlk, hsufg⟩ := entriesNode_shape excl (rel ++ [name]) n hwn e hL
      refine ⟨name, n, suf, ?_, ?_, hlk, hg, hsufg⟩
      · rw [hshape, List.append_assoc]
        rfl
      · simp [lookupForest]
    · obtain ⟨name', n', suf, hshape, hlf, hlk, hg', hsufg⟩ :=
        entriesForest_shape excl rel rest hrest e hR
      have hne : name ≠ name' := by
        intro hcontra
        subst hcontra
        have hmem := lookupForest_mem_names rest name n' hlf
        simp at hnotin
        exact hnotin hmem
      refine ⟨name', n', suf, hshape, ?_, hlk, hg', hsufg⟩
      simp only [lookupForest, if_neg hne]
      exact hlf
end

mutual
/-- Pruning: if a directory inside a visited node is excluded, no entry of
that node extends the directory's path — the walk returns `SkipDir` at the
directory and never descends (archive.go:44-49). -/
theorem entriesNode_pruned (excl : List Str) (rel : List Str) (n : FSNode)
    (d : List Str) (cs' : FSForest)
    (hwf : wfNode n = true) (hne : d ≠ [])
    (hlk : lookupNode n d = some (.dir cs'))
    (hex : shouldExclude (joinPath (rel ++ d)) excl = true) :
    ∀ e ∈ entriesNode excl rel n, ¬ ((rel ++ d) <+: e) := by
  intro e he hpre
  match n, d with
  | _, [] => exact hne rfl
  | .file, seg :: segs => simp [lookupNode] at hlk
  | .dir cs, seg :: segs =>
    simp only [entriesNode] at he
    split at he
    · cases he
    · rw [show lookupNode (.dir cs) (seg :: segs) =
            (match lookupForest cs seg with
             | some child => lookupNode child segs
             | none => none) from rfl] at hlk
      cases hlf : lookupForest cs seg with
      | none => rw [hlf] at hlk; cases hlk
      | some child =>
        rw [hlf] at hlk
        exact entriesForest_pruned excl rel cs seg segs child cs' hwf hlf hlk hex e he hpre
/-- Pruning, forest form: the excluded directory is reached through the
child named `seg`. -/
theorem entriesForest_pruned (excl : List Str) (rel : List Str) (cs : FSForest)
    (seg : Str) (segs : List Str) (child : FSNode) (cs' : FSForest)
    (hwf : wfForest cs = true)
    (hlf : lookupForest cs seg = some child)
    (hlk : lookupNode child segs = some (.dir cs'))
    (hex : shouldExclude (joinPath (rel ++ seg :: segs)) excl = true) :
    ∀ e ∈ entriesForest excl rel cs, ¬ ((rel ++ seg :: segs) <+: e) := by
  intro e he hpre
  match cs with
  | .nil => cases he
  | .cons name n rest =>
    simp only [wfForest, Bool.and_eq_true] at hwf
    obtain ⟨⟨⟨hg, hnotin⟩, hwn⟩, hrest⟩ := hwf
    simp only [entriesForest] at he
    rcases List.mem_append.mp he with hL | hR
    · by_cases hns : name = seg
      · have hchild : child = n := by
          rw [← hns] at hlf
          simp [lookupForest] at hlf
          exact hlf.symm
        subst hchild
        match segs, hlk with
        | [], hlk =>
          have hcd : child = .dir cs' := by simpa [lookupNode] using hlk
          subst hcd
          simp only [entriesNode] at hL
          rw [if_pos (by rw [hns]; exact hex)] at hL
          cases hL
        | seg2 :: segs2, hlk =>
          have hexn : shouldExclude (joinPath ((rel ++ [name]) ++ seg2 :: segs2)) excl = true := by
            rw [List.append_assoc, hns]
            exact hex
          have hnoe := entriesNode_pruned excl (rel ++ [name]) child (seg2 :: segs2) cs'
            hwn (by simp) hlk hexn e hL
          apply hnoe
          rw [List.append_assoc]
          rw [hns]
          exact hpre
      · obtain ⟨suf, hshape, _, _⟩ := entriesNode_shape excl (rel ++ [name]) n hwn e hL
        rw [hshape, List.append_assoc] at hpre
        have h2 := (List.prefix_append_right_inj rel).mp hpre
        have hhead := (List.cons_prefix_cons.mp h2).1
        exact hns hhead.symm
    · by_cases hns : name = seg
      · obtain ⟨name', n', suf, hshape, hlf', _, _, _⟩ :=
          entriesForest_shape excl rel rest hrest e hR
        rw [hshape] at hpre
        have h2 := (List.prefix_append_right_inj rel).mp hpre
        have hhead := (List.cons_prefix_cons.mp h2).1
        have hmem := lookupForest_mem_names rest name' n' hlf'
        simp at hnotin
        exact hnotin (by rw [hns.trans hhead]; exact hmem)
      · simp only [lookupForest, if_neg hns] at hlf
        exact entriesForest_pruned excl rel rest seg segs child cs' hrest hlf hlk hex e hR hpre
end

/-- Unpacking a legal name. -/
theorem goodName_props (s : Str) (h : goodName s = true) :
    s ≠ [] ∧ ('/' : Char) ∉ s ∧ s ≠ ['.'] := by
  simp only [goodName, Bool.and_eq_true] at h
  obtain ⟨⟨⟨h1, h2⟩, h3⟩, _⟩ := h
  refine ⟨?_, ?_, ?_⟩
  · intro hs; subst hs; simp at h1
  · simp at h2; exact h2
  · intro hs
    have h3' : s ≠ str "." := bne_iff_ne.mp h3
    exact h3' (hs.trans rfl)

/-- Two separator-free blocks followed by a separator: equality splits. -/
theorem sepFree_append_eq (a : Str) :
    ∀ (x b y : Str), ('/' : Char) ∉ a → ('/' : Char) ∉ b →
      a ++ '/' :: x = b ++ '/' :: y → a = b ∧ x = y := by
  induction a with
  | nil =>
    intro x b y _ hb h
    cases b with
    | nil => simp at h; exact ⟨rfl, h⟩
    | cons c b' =>
      simp at h
      exact absurd (by rw [h.1]; exact List.mem_cons_self c b') hb
  | cons c a' ih =>
    intro x b y ha hb h
    cases b with
    | nil =>
      simp at h
      exact absurd (by rw [← h.1]; exact List.mem_cons_self c a') ha
    | cons c' b' =>
      simp at h
      obtain ⟨h1, h2⟩ := h
      have ha' : ('/' : Char) ∉ a' := fun hm => ha (List.mem_cons_of_mem _ hm)
      have hb' : ('/' : Char) ∉ b' := fun hm => hb (List.mem_cons_of_mem _ hm)
      obtain ⟨e1, e2⟩ := ih x b' y ha' hb' h2
      exact ⟨by rw [h1, e1], e2⟩

/-- Two separator-free blocks followed by a separator: a prefix relation
splits at the first separator. -/
theorem sepFree_append_prefix (a : Str) :
    ∀ (x b y : Str), ('/' : Char) ∉ a → ('/' : Char) ∉ b →
      a ++ '/' :: x <+: b ++ '/' :: y → a = b ∧ x <+: y := by
  induction a with
  | nil =>
    intro x b y _ hb h
    cases b with
    | nil =>
      simp only [List.nil_append] at h
      exact ⟨rfl, (List.cons_prefix_cons.mp h).2⟩
    | cons c b' =>
      simp only [List.nil_append, List.cons_append] at h
      have h1 := (List.cons_prefix_cons.mp h).1
      exact absurd (by rw [h1]; exact List.mem_cons_self c b') hb
  | cons c a' ih =>
    intro x b y ha hb h
    cases b with
    | nil =>
      simp only [List.cons_append, List.nil_append] at h
      have h1 := (List.cons_prefix_cons.mp h).1
      exact absurd (by rw [← h1]; exact List.mem_cons_self c a') ha
    | cons c' b' =>
      simp only [List.cons_append] at h
      obtain ⟨h1, h2⟩ := List.cons_prefix_cons.mp h
      have ha' : ('/' : Char) ∉ a' := fun hm => ha (List.mem_cons_of_mem _ hm)
      have hb' : ('/' : Char) ∉ b' := fun hm => hb (List.mem_cons_of_mem _ hm)
      obtain ⟨e1, e2⟩ := ih x b' y ha' hb' h2
      exact ⟨by rw [h1, e1], e2⟩

/-- `joinPath` equation for two or more segments. -/
theorem joinPath_cons_cons (s t : Str) (r : List Str) :
    joinPath (s :: t :: r) = s ++ '/' :: joinPath (t :: r) := rfl

/-- A separator-terminated joined path that is a string prefix of another
joined path is a segment-list prefix (segments are separator-free and
nonempty, so separators occur exactly at segment boundaries). -/
theorem joinPath_sep_prefix (d : List Str) :
    ∀ (e : List Str),
      (∀ s ∈ d, ('/' : Char) ∉ s ∧ s ≠ []) → (∀ s ∈ e, ('/' : Char) ∉ s ∧ s ≠ []) →
      (joinPath d ++ ['/']) <+: joinPath e → d <+: e := by
  induction d with
  | nil => intro e _ _ _; exact List.nil_prefix
  | cons s d' ih =>
    intro e hd he h
    have hs := hd s (List.mem_cons_self s d')
    cases e with
    | nil => exact absurd (List.prefix_nil.mp h) (by simp)
    | cons t e' =>
      have ht := he t (List.mem_cons_self t e')
      cases d' with
      | nil =>
        cases e' with
        | nil => exact absurd (h.subset (by simp)) ht.1
        | cons t2 e'' =>
          obtain ⟨e1, _⟩ := sepFree_append_prefix s [] t (joinPath (t2 :: e'')) hs.1 ht.1 h
          rw [e1]
          exact List.cons_prefix_cons.mpr ⟨rfl, List.nil_prefix⟩
      | cons s2 d'' =>
        cases e' with
        | nil => exact absurd (h.subset (by simp [joinPath_cons_cons])) ht.1
        | cons t2 e'' =>
          have h' : s ++ '/' :: (joinPath (s2 :: d'') ++ ['/']) <+:
              t ++ '/' :: joinPath (t2 :: e'') := by
            have heq : joinPath (s :: s2 :: d'') ++ ['/'] =
                s ++ '/' :: (joinPath (s2 :: d'') ++ ['/']) := by
              rw [joinPath_cons_cons]
              simp
            rw [← heq]
            exact h
          obtain ⟨e1, e2⟩ := sepFree_append_prefix s (joinPath (s2 :: d'') ++ ['/']) t
            (joinPath (t2 :: e'')) hs.1 ht.1 h'
          have hrec := ih (t2 :: e'') (fun u hu => hd u (List.mem_cons_of_mem _ hu))
            (fun u hu => he u (List.mem_cons_of_mem _ hu)) e2
          rw [e1]
          exact List.cons_prefix_cons.mpr ⟨rfl, hrec⟩

/-- `joinPath` is injective on lists of separator-free nonempty segments. -/
theorem joinPath_inj (d : List Str) :
    ∀ (e : List Str),
      (∀ s ∈ d, ('/' : Char) ∉ s ∧ s ≠ []) → (∀ s ∈ e, ('/' : Char) ∉ s ∧ s ≠ []) →
      joinPath d = joinPath e → d = e := by
  induction d with
  | nil =>
    intro e _ he h
    cases e with
    | nil => rfl
    | cons t e' =>
      cases e' with
      | nil =>
        have h' : ([] : Str) = t := h
        exact absurd h'.symm (he t (List.mem_cons_self t [])).2
      | cons t2 e'' =>
        have h' : ([] : Str) = t ++ '/' :: joinPath (t2 :: e'') := h
        exact absurd h'.symm (by simp)
  | cons s d' ih =>
    intro e hd he h
    have hs := hd s (List.mem_cons_self s d')
    cases e with
    | nil =>
      cases d' with
      | nil => exact absurd h hs.2
      | cons s2 d'' =>
        have h' : s ++ '/' :: joinPath (s2 :: d'') = [] := h
        exact absurd h' (by simp)
    | cons t e' =>
      have ht := he t (List.mem_cons_self t e')
      cases d' with
      | nil =>
        cases e' with
        | nil =>
          have h' : s = t := h
          rw [h']
        | cons t2 e'' =>
          have h' : s = t ++ '/' :: joinPath (t2 :: e'') := h
          exact absurd (by rw [h']; simp) hs.1
      | cons s2 d'' =>
        cases e' with
        | nil =>
          have h' : s ++ '/' :: joinPath (s2 :: d'') = t := h
          exact absurd (by rw [← h']; simp) ht.1
        | cons t2 e'' =>
          obtain ⟨e1, e2⟩ := sepFree_append_eq s (joinPath (s2 :: d'')) t
            (joinPath (t2 :: e'')) hs.1 ht.1 h
          have hrec := ih (t2 :: e'') (fun u hu => hd u (List.mem_cons_of_mem _ hu))
            (fun u hu => he u (List.mem_cons_of_mem _ hu)) e2
          rw [e1, hrec]

/-- A nonempty path of legal segments never joins to `"."`. -/
theorem joinPath_good_ne_dot (e : List Str) (hne : e ≠ [])
    (hg : ∀ s ∈ e, goodName s = true) : joinPath e ≠ ['.'] := by
  match e with
  | [] => exact absurd rfl hne
  | [t] =>
    have hp := goodName_props t (hg t (List.mem_cons_self t []))
    intro h
    have h' : t = ['.'] := h
    exact hp.2.2 h'
  | t :: t2 :: r =>
    intro h
    have hmem : ('/' : Char) ∈ joinPath (t :: t2 :: r) := by
      rw [joinPath_cons_cons]; simp
    rw [h] at hmem
    simp at hmem

/-- C3: over any well-formed source tree and any exclusion configuration,
the archive built by `CreateArchive` contains entries only for regular
files: the source root (relative path `"."`) is never added as an entry, no
directory is stored as an entry (every entry path looks up to a regular
file), and when a directory's relative path matches an exclusion pattern,
the entire subtree beneath it is pruned — no archive member equals that
directory's path or extends it past a separator.  Well-formedness asks only
what a real directory tree guarantees: sibling names are distinct, nonempty,
separator-free, and not `"."` or `".."`. -/
theorem archive_entries_invariants (t : FSNode) (excl : List Str) (hwf : wfNode t = true) :
    (str "." ∉ archiveEntries excl t) ∧
    (∀ e ∈ archiveEntrySegs excl t, e ≠ [] ∧ lookupNode t e = some .file) ∧
    (∀ (d : List Str) (cs' : FSForest), d ≠ [] → lookupNode t d = some (.dir cs') →
      shouldExclude (joinPath d) excl = true →
      ∀ p ∈ archiveEntries excl t, p ≠ joinPath d ∧ ¬ ((joinPath d ++ ['/']) <+: p)) := by
  match t with
  | .file =>
    refine ⟨by simp [archiveEntries, archiveEntrySegs], ?_, ?_⟩
    · intro e he
      simp [archiveEntrySegs] at he
    · intro d cs' hdne hlk hex p hp
      cases d with
      | nil => exact absurd rfl hdne
      | cons a b => simp [lookupNode] at hlk
  | .dir cs =>
    have hcs : wfForest cs = true := hwf
    have hshape := entriesForest_shape excl [] cs hcs
    have hEgood : ∀ e ∈ archiveEntrySegs excl (.dir cs),
        e ≠ [] ∧ (∀ s ∈ e, goodName s = true) ∧ lookupNode (.dir cs) e = some .file := by
      intro e he
      obtain ⟨name, n, suf, hsh, hlf, hlk, hg, hsufg⟩ := hshape e he
      rw [List.nil_append] at hsh
      refine ⟨by rw [hsh]; simp, ?_, ?_⟩
      · rw [hsh]
        intro s hs
        rcases List.mem_cons.mp hs with h1 | h2
        · subst h1; exact hg
        · exact hsufg s h2
      · rw [hsh]
        rw [show lookupNode (.dir cs) (name :: suf) =
              (match lookupForest cs name with
               | some child => lookupNode child suf
               | none => none) from rfl, hlf]
        exact hlk
    refine ⟨?_, ?_, ?_⟩
    · intro hm
      simp only [archiveEntries, List.mem_map] at hm
      obtain ⟨e, he, hje⟩ := hm
      obtain ⟨hne, hegood, _⟩ := hEgood e he
      exact joinPath_good_ne_dot e hne hegood hje
    · intro e he
      obtain ⟨hne, _, hfile⟩ := hEgood e he
      exact ⟨hne, hfile⟩
    · intro d cs' hdne hlk hex p hp
      simp only [archiveEntries, List.mem_map] at hp
      obtain ⟨e, he, hje⟩ := hp
      subst hje
      obtain ⟨hne, hegood, hfile⟩ := hEgood e he
      have hdgood : ∀ s ∈ d, goodName s = true :=
        (lookupNode_good (.dir cs) d (.dir cs') hwf hlk).1
      have hnopre : ¬ (d <+: e) := by
        cases d with
        | nil => exact absurd rfl hdne
        | cons seg segs =>
          have hlk' := hlk
          rw [show lookupNode (.dir cs) (seg :: segs) =
                (match lookupForest cs seg with
                 | some child => lookupNode child segs
                 | none => none) from rfl] at hlk'
          cases hlf2 : lookupForest cs seg with
          | none => rw [hlf2] at hlk'; cases hlk'
          | some child =>
            rw [hlf2] at hlk'
            intro hpre
            have hnp := entriesForest_pruned excl [] cs seg segs child cs' hcs hlf2 hlk'
              (by rw [List.nil_append]; exact hex) e he
            exact hnp (by rw [List.nil_append]; exact hpre)
      constructor
      · intro heq
        have hed : e = d := joinPath_inj e d
          (fun s hs => ⟨(goodName_props s (hegood s hs)).2.1, (goodName_props s (hegood s hs)).1⟩)
          (fun s hs => ⟨(goodName_props s (hdgood s hs)).2.1, (goodName_props s (hdgood s hs)).1⟩)
          heq
        rw [hed] at hfile
        rw [hfile] at hlk
        simp at hlk
      · intro hpre
        have hseg := joinPath_sep_prefix d e
          (fun s hs => ⟨(goodName_props s (hdgood s hs)).2.1, (goodName_props s (hdgood s hs)).1⟩)
          (fun s hs => ⟨(goodName_props s (hegood s hs)).2.1, (goodName_props s (hegood s hs)).1⟩)
          hpre
        exact hnopre hseg

/-- Witness for `archive_entries_invariants` on `sampleForest` with the
excluded directory `Tests`: a concrete member is neither the excluded
directory nor beneath it. -/
theorem archive_entries_invariants_witness :
    str "Package.swift" ≠ joinPath [str "Tests"] ∧
    ¬ ((joinPath [str "Tests"] ++ ['/']) <+: str "Package.swift") :=
  (archive_entries_invariants (.dir sampleForest) [str "Tests"] (by decide)).2.2
    [str "Tests"] (.cons (str "t.swift") .file .nil) (by decide) (by decide) (by decide)
    (str "Package.swift") (by decide)
